import Mathlib

/-!
Verification development for the json_parser repository (src/json_parser.hpp).

The C++ value tree `JsonBase` with its virtual `JsonInterface` implementations
(`JsonImplObject`, `JsonImplArray`, `JsonImplString`, `JsonImplInteger`,
`JsonImplDouble`, `JsonImplBoolean`, `JsonImplNull`) is embedded as the
inductive `JsonValue`; a `JsonBase` (payload plus sticky `last_error_`) is the
structure `JsonBase`.  `std::string` values are modelled as `List Char`.
The recursive-descent parser `JsonParser` is embedded as a family of pure
functions over the input list and an absolute cursor, with a fuel parameter
standing in for the unbounded call-stack recursion of the source (the source
recursion depth is bounded by the input length, and the fuel chosen by the
top-level entry point dominates it).
-/

/-- Character returned for an out-of-range read.  The source indexes a
`std::string_view` with `underlying_json_[i]`; a read at or past the end is
modelled as the NUL character, matching the null-terminated buffers the
parser is exercised with in the repository's tests. -/
def nul : Char := Char.ofNat 0

/-- Read of `underlying_json_[i]`, with out-of-range reads yielding `nul`. -/
def getC (s : List Char) (i : Nat) : Char := s.getD i nul

/-- Whitespace test used by the parser's skipping loops: space, tab, newline. -/
def isWs (c : Char) : Bool := c = ' ' || c = '\t' || c = '\n'

/-- Digit test mirroring the source's `c <= '9' && c >= '0'` comparisons
(ASCII 48 to 57). -/
def isDigit (c : Char) : Bool := 48 ≤ c.toNat && c.toNat ≤ 57

/-- The JsonType enumeration of the source. -/
inductive JsonType where
  | object
  | array
  | integer
  | string
  | boolean
  | null
  | floating_point
deriving DecidableEq, Repr

/-- The JsonError enumeration of the source (value-level errors). -/
inductive JsonError where
  | ok
  | not_implemented
  | does_not_exist
  | empty_attribute_key
  | parse_error
deriving DecidableEq, Repr

/-- The JsonParser::JsonParserError enumeration of the source
(parser-level errors). -/
inductive JsonParserError where
  | ok
  | expected_comma_before_next_attribute
  | expected_comma_before_next_array_item
  | expected_attribute_but_got_comma
  | expected_string_attribute_key
  | expected_closing_quote_but_got_eos
  | expected_beginning_of_string_int_object_or_array_null_float
  | expected_colon_but_got_different_character_instead
  | expected_int_or_double
deriving DecidableEq, Repr

/-- The value tree.  One constructor per `JsonImpl...` class.  An object's
`std::unordered_map<std::string, JsonBase*>` is modelled as an association
list (the map's iteration order is unspecified in the source; the list fixes
one order, and every claim about objects is insensitive to it).  The `double`
payload of `JsonImplDouble` is modelled as a rational number: no claim
depends on binary64 rounding, and the float dump (see `JsonValue.dump`)
does not inspect the payload at all. -/
inductive JsonValue where
  | jobject (traits : List (List Char × JsonValue))
  | jarray (vec : List JsonValue)
  | jstring (content : List Char)
  | jinteger (value : Int)
  | jfloat (value : ℚ)
  | jboolean (value : Bool)
  | jnull

/-- The `type()` virtual of each implementation class. -/
def JsonValue.type : JsonValue → JsonType
  | .jobject _ => .object
  | .jarray _ => .array
  | .jstring _ => .string
  | .jinteger _ => .integer
  | .jfloat _ => .floating_point
  | .jboolean _ => .boolean
  | .jnull => .null

/-- The `size()` virtual: container size for object/array, 1 for every
primitive implementation. -/
def JsonValue.size : JsonValue → Nat
  | .jobject l => l.length
  | .jarray l => l.length
  | _ => 1

/-- Model of `traits_[key]` assignment in `JsonImplObject::insert`: replace
the value stored at an existing key in place, otherwise add the new pair
(the unordered map's placement is unspecified; the model appends). -/
def insertPair (l : List (List Char × JsonValue)) (k : List Char) (v : JsonValue) :
    List (List Char × JsonValue) :=
  match l with
  | [] => [(k, v)]
  | (k', v') :: t => if k' = k then (k, v) :: t else (k', v') :: insertPair t k v

/-- The `insert` virtual, dispatched on the receiver's kind exactly as the
virtual call does: `JsonImplObject::insert` rejects an empty key with
`empty_attribute_key` and otherwise stores (replace-on-duplicate);
`JsonImplArray::insert` rejects a non-empty key with `not_implemented` and
otherwise appends; every other implementation inherits the interface default,
which sets `not_implemented`.  The `err` parameter models the by-reference
error argument: it is returned unchanged when the source leaves it untouched. -/
def JsonValue.insert (v : JsonValue) (key : List Char) (newInsert : JsonValue)
    (err : JsonError) : JsonValue × JsonError :=
  match v with
  | .jobject l =>
      if key = [] then (.jobject l, .empty_attribute_key)
      else (.jobject (insertPair l key newInsert), err)
  | .jarray l =>
      if key = [] then (.jarray (l ++ [newInsert]), err)
      else (.jarray l, .not_implemented)
  | w => (w, .not_implemented)

/-- A `JsonBase`: the active interface payload plus the sticky
`last_error_` register. -/
structure JsonBase where
  val : JsonValue
  last_error : JsonError

/-- The fluent `JsonBase::set`, which forwards to the interface `insert`
with the receiver's `last_error_` as the by-reference error. -/
def JsonBase.set (b : JsonBase) (key : List Char) (child : JsonValue) : JsonBase :=
  let r := b.val.insert key child b.last_error
  { val := r.1, last_error := r.2 }

/-- The fluent `JsonBase::push_back`, which forwards to the interface
`insert` with the empty key. -/
def JsonBase.push_back (b : JsonBase) (child : JsonValue) : JsonBase :=
  b.set [] child

/-- The `to_string` virtual: the string content for `JsonImplString`
(error untouched), otherwise the interface default, which sets
`not_implemented` and returns an empty string. -/
def toStringImpl (v : JsonValue) (err : JsonError) : List Char × JsonError :=
  match v with
  | .jstring c => (c, err)
  | _ => ([], .not_implemented)

/-- The `to_int` virtual: the stored `long long` for `JsonImplInteger`
(error untouched), otherwise the interface default, which sets
`not_implemented` and returns -1. -/
def toIntImpl (v : JsonValue) (err : JsonError) : Int × JsonError :=
  match v with
  | .jinteger n => (n, err)
  | _ => (-1, .not_implemented)

/-- The `to_bool` virtual: the stored boolean for `JsonImplBoolean`
(error untouched), otherwise the interface default, which sets
`not_implemented` and returns false. -/
def toBoolImpl (v : JsonValue) (err : JsonError) : Bool × JsonError :=
  match v with
  | .jboolean b => (b, err)
  | _ => (false, .not_implemented)

/-- Two's-complement narrowing of a `long long` value to a 32-bit `int`,
as performed by `int tmp = interface_->to_int(last_error_)` in
`JsonBase::map_int` (modular conversion, as gcc/clang implement and
C++20 defines). -/
def wrap32 (x : Int) : Int := (x + 2 ^ 31) % 2 ^ 32 - 2 ^ 31

/-- `JsonBase::map_string`.  The second component records the argument the
callback `func` was invoked with (`none` when it was not invoked); the first
component is the receiver as left by the call (the source returns `*this`). -/
def JsonBase.map_string (b : JsonBase) : JsonBase × Option (List Char) :=
  let r := toStringImpl b.val b.last_error
  if r.2 = .ok then ({ val := b.val, last_error := r.2 }, some r.1)
  else ({ val := b.val, last_error := r.2 }, none)

/-- `JsonBase::map_int`.  The callback parameter has C++ type `int`, so the
64-bit extraction result is narrowed before the call. -/
def JsonBase.map_int (b : JsonBase) : JsonBase × Option Int :=
  let r := toIntImpl b.val b.last_error
  if r.2 = .ok then ({ val := b.val, last_error := r.2 }, some (wrap32 r.1))
  else ({ val := b.val, last_error := r.2 }, none)

/-- `JsonBase::map_bool`. -/
def JsonBase.map_bool (b : JsonBase) : JsonBase × Option Bool :=
  let r := toBoolImpl b.val b.last_error
  if r.2 = .ok then ({ val := b.val, last_error := r.2 }, some r.1)
  else ({ val := b.val, last_error := r.2 }, none)

/-- `JsonBase::map_object`: iterates the pairs only when the receiver is an
object with no pending error, otherwise sets `not_implemented`.  The second
component records the pair list handed to `map_for_each` when iteration
happened. -/
def JsonBase.map_object (b : JsonBase) : JsonBase × Option (List (List Char × JsonValue)) :=
  match b.val with
  | .jobject l =>
      if b.last_error = .ok then ({ val := .jobject l, last_error := b.last_error }, some l)
      else ({ val := .jobject l, last_error := .not_implemented }, none)
  | w => ({ val := w, last_error := .not_implemented }, none)

/-- Overwrite of the last character of a non-empty buffer,
`ret[ret.length()-1] = c`, as used by the object and array dumps to turn the
final separator comma into the closing bracket. -/
def setLast (l : List Char) (c : Char) : List Char := l.dropLast ++ [c]

/-- Decimal digits of a natural number, most significant first, as produced
by `std::to_string`. -/
def natDigits (n : Nat) : List Char :=
  if h : n < 10 then [Char.ofNat (48 + n)]
  else natDigits (n / 10) ++ [Char.ofNat (48 + n % 10)]
termination_by n
decreasing_by
  exact Nat.div_lt_self (by omega) (by omega)

/-- `std::to_string` on the stored `long long`, as used by
`JsonImplInteger::dump`. -/
def intDump (v : Int) : List Char :=
  if v < 0 then '-' :: natDigits (-v).toNat else natDigits v.toNat

mutual

/-- The `dump()` virtuals.  Object: `{` then, per stored pair,
`"key":value,`, with the final comma overwritten by `}` (empty map returns
`{}` directly).  Array: the same with `[`, `]` and no keys.  String: the
content wrapped in quotes with no escaping.  Integer: `std::to_string`.
Boolean and null: their literals.  Float (`JsonImplDouble::dump`): the
source `snprintf`s the `%f` text into the spare capacity of a size-0
`std::string` (`k.reserve(50); snprintf(&k[0], ...)`) and never sets the
string's size, so the `std::string` value returned — and hence everything
built from it by `+=` — is the empty string; the model returns `[]`. -/
def JsonValue.dump : JsonValue → List Char
  | .jobject [] => ['{', '}']
  | .jobject (h :: t) => '{' :: setLast (dumpPairs (h :: t)) '}'
  | .jarray [] => ['[', ']']
  | .jarray (h :: t) => '[' :: setLast (dumpItems (h :: t)) ']'
  | .jstring c => '"' :: c ++ ['"']
  | .jinteger n => intDump n
  | .jfloat _ => []
  | .jboolean true => ['t', 'r', 'u', 'e']
  | .jboolean false => ['f', 'a', 'l', 's', 'e']
  | .jnull => ['n', 'u', 'l', 'l']

/-- The object dump loop body: every pair contributes
`"key":value,` (the trailing comma of the last pair is overwritten by the
caller). -/
def dumpPairs : List (List Char × JsonValue) → List Char
  | [] => []
  | (k, v) :: t => '"' :: k ++ '"' :: ':' :: v.dump ++ ',' :: dumpPairs t

/-- The array dump loop body: every item contributes `value,`. -/
def dumpItems : List JsonValue → List Char
  | [] => []
  | v :: t => v.dump ++ ',' :: dumpItems t

end

/-- Number of leading whitespace characters of a suffix, used to model the
parser's whitespace-skipping loops. -/
def skipWsCount : List Char → Nat
  | [] => 0
  | c :: t => if isWs c then skipWsCount t + 1 else 0

/-- The cursor position after skipping whitespace from `p`: models both the
bounded skip loop at the top of `JsonParser::parse` and
`skip_whitespace_tab_newline` (the latter's unbounded `while` stops at the
NUL read of the out-of-range model). -/
def skipWs (s : List Char) (p : Nat) : Nat := p + skipWsCount (s.drop p)

/-- The scanning loop of `JsonParser::parse_string`, on the suffix that
starts right after the opening quote.  `prev` threads the character at the
previous cursor position, so the `underlying_json_[abs_pos_-1] != '\\'`
look-back is `prev ≠ '\\'`.  Returns the accumulated content, the number of
characters consumed, and whether an unescaped closing quote was found. -/
def strLoop (prev : Char) : List Char → List Char × Nat × Bool
  | [] => ([], 0, false)
  | c :: t =>
      if c = '"' ∧ prev ≠ '\\' then ([], 0, true)
      else
        let r := strLoop c t
        (c :: r.1, r.2.1 + 1, r.2.2)

/-- `JsonParser::parse_string`: `p` is the position of the opening quote.
On success the cursor is left on the closing quote; on end-of-input the
error becomes `expected_closing_quote_but_got_eos` and the accumulated
content is still returned. -/
def parseString (s : List Char) (p : Nat) (err : JsonParserError) :
    JsonValue × Nat × JsonParserError :=
  let r := strLoop (getC s p) (s.drop (p + 1))
  if r.2.2 then (.jstring r.1, p + 1 + r.2.1, err)
  else (.jstring r.1, p + 1 + r.2.1, .expected_closing_quote_but_got_eos)

/-- Maximal run of decimal digits at the head of a suffix, as consumed by
the C library conversion routines. -/
def takeDigits : List Char → List Char
  | [] => []
  | c :: t => if isDigit c then c :: takeDigits t else []

/-- Value of a digit string, most significant digit first. -/
def digitsToNat (l : List Char) : Nat :=
  l.foldl (fun a c => 10 * a + (c.toNat - 48)) 0

/-- Model of `strtol(start, &end, 10)` on the suffix beginning at `start`:
optional sign, then a maximal digit run.  Returns the converted value and
the number of characters consumed (`end - start`); zero consumption models
`start == end`.  Call sites start at a sign or digit, so the leading
whitespace skip of the C routine is a no-op and is not modelled; the value
is kept as an unbounded integer (the stored `long long` — overflow clamping
of out-of-range literals is outside every claim). -/
def strtolM (l : List Char) : Int × Nat :=
  match l with
  | [] => (0, 0)
  | c :: t =>
      if c = '-' then
        let ds := takeDigits t
        (-(digitsToNat ds : Int), if ds = [] then 0 else ds.length + 1)
      else if c = '+' then
        let ds := takeDigits t
        ((digitsToNat ds : Int), if ds = [] then 0 else ds.length + 1)
      else
        let ds := takeDigits (c :: t)
        ((digitsToNat ds : Int), ds.length)

/-- Model of `strtod(start, &end)` restricted to the forms the scanner can
feed it: optional sign, digits, optional decimal point, digits.  Exponent,
hexadecimal and inf/nan forms are not modelled (the source grammar never
produces them and no claim mentions them).  Returns the value as a rational
and the characters consumed. -/
def strtodM (l : List Char) : ℚ × Nat :=
  match l with
  | [] => (0, 0)
  | c :: t =>
      if c = '-' then
        let r := strtodM t
        (-r.1, if r.2 = 0 then 0 else r.2 + 1)
      else if c = '+' then
        let r := strtodM t
        (r.1, if r.2 = 0 then 0 else r.2 + 1)
      else
        let ds := takeDigits (c :: t)
        let rest := (c :: t).drop ds.length
        match rest with
        | '.' :: u =>
            let fs := takeDigits u
            if ds = [] ∧ fs = [] then (0, 0)
            else (((digitsToNat ds : ℚ) + (digitsToNat fs : ℚ) / (10 : ℚ) ^ fs.length),
                  ds.length + 1 + fs.length)
        | _ => ((digitsToNat ds : ℚ), ds.length)

/-- The scanning loop of `JsonParser::parse_integer_or_double`: consume
`-`, `.` and digits until some other character (or the end) breaks the loop.
Returns the number of characters consumed and whether a `.` was seen
(the `is_float` flag). -/
def numRun : List Char → Nat × Bool
  | [] => (0, false)
  | c :: t =>
      if c = '-' then
        let r := numRun t
        (r.1 + 1, r.2)
      else if c = '.' then
        let r := numRun t
        (r.1 + 1, true)
      else if isDigit c then
        let r := numRun t
        (r.1 + 1, r.2)
      else (0, false)

/-- `JsonParser::parse_integer_or_double`: scan the numeric run, step the
cursor back onto its last character (`--abs_pos_`), then convert from the
original start with `strtod`/`strtol` according to the `is_float` flag;
`start == end` (nothing consumed) sets `expected_int_or_double`. -/
def parseNumber (s : List Char) (p : Nat) (err : JsonParserError) :
    JsonValue × Nat × JsonParserError :=
  let r := numRun (s.drop p)
  let pEnd := p + r.1 - 1
  if r.2 then
    let c := strtodM (s.drop p)
    (.jfloat c.1, pEnd, if c.2 = 0 then .expected_int_or_double else err)
  else
    let c := strtolM (s.drop p)
    (.jinteger c.1, pEnd, if c.2 = 0 then .expected_int_or_double else err)

/-- `JsonParser::parse_boolean`: `substr(abs_pos_,4) == "true"` selects
true (cursor advanced by 3) and anything else — the source does not
re-validate — selects false (cursor advanced by 4).  `substr` clamps at the
end of the view, which `List.take` does as well. -/
def parseBoolean (s : List Char) (p : Nat) (err : JsonParserError) :
    JsonValue × Nat × JsonParserError :=
  if (s.drop p).take 4 = ['t', 'r', 'u', 'e'] then (.jboolean true, p + 3, err)
  else (.jboolean false, p + 4, err)

/-- The four characters at positions `p..p+3`, as read by the
`std::string_view(&underlying_json_[abs_pos_], 4)` construction of
`parse_null` (which does not clamp; out-of-range reads are the NUL of the
read model). -/
def fourAt (s : List Char) (p : Nat) : List Char :=
  [getC s p, getC s (p + 1), getC s (p + 2), getC s (p + 3)]

/-- `JsonParser::parse_null`: a mismatch sets the unrecognized-value-start
error; the cursor advances by 3 and a null value is returned either way. -/
def parseNull (s : List Char) (p : Nat) (err : JsonParserError) :
    JsonValue × Nat × JsonParserError :=
  if fourAt s p = ['n', 'u', 'l', 'l'] then (.jnull, p + 3, err)
  else (.jnull, p + 3, .expected_beginning_of_string_int_object_or_array_null_float)

/-- Effect of `json_key->map_string([&key](std::string x){key = std::move(x);})`
on a freshly parsed key value (whose own `last_error_` is `ok`): the content
when the value is a string, otherwise the key stays empty. -/
def keyOfString : JsonValue → List Char
  | .jstring c => c
  | _ => []

mutual

/-- `JsonParser::parse`: skip whitespace, then dispatch on the next
character.  The fuel parameter stands in for the source's unbounded
recursion; with fuel 0 the model returns a default object and the error
unchanged (the top-level entry point supplies fuel exceeding the source's
recursion depth, so this case is never exercised by the theorems below).
The `err` parameter threads the parser's sticky `error_` field. -/
def parseValue (s : List Char) : Nat → Nat → JsonParserError →
    JsonValue × Nat × JsonParserError
  | 0, p, err => (.jobject [], p, err)
  | fuel + 1, p, err =>
      let p1 := skipWs s p
      let c := getC s p1
      if c = '{' then
        let r := parseObjectLoop s fuel (p1 + 1) [] [] false err
        (.jobject r.1, r.2.1, r.2.2)
      else if c = '[' then
        let r := parseArrayLoop s fuel (p1 + 1) [] false err
        (.jarray r.1, r.2.1, r.2.2)
      else if c = '"' then parseString s p1 err
      else if c = 't' ∨ c = 'f' then parseBoolean s p1 err
      else if c = 'n' then parseNull s p1 err
      else if isDigit c ∨ c = '-' then parseNumber s p1 err
      else (.jobject [], p1, .expected_beginning_of_string_int_object_or_array_null_float)

/-- The `for` loop of `JsonParser::parse_object`.  `acc` is the object built
so far (`object->set(std::move(key), json_item)` with a non-empty key is
`insertPair`), `key` the pending attribute key (empty when a key is awaited),
`ec` the `expect_comma` flag.  Loop exits (`break` and the loop condition)
return the current accumulator, cursor and error exactly as the source's
`return object` does. -/
def parseObjectLoop (s : List Char) : Nat → Nat → List (List Char × JsonValue) →
    List Char → Bool → JsonParserError →
    List (List Char × JsonValue) × Nat × JsonParserError
  | 0, p, acc, _, _, err => (acc, p, err)
  | fuel + 1, p, acc, key, ec, err =>
      if p < s.length then
        let c := getC s p
        if isWs c then parseObjectLoop s fuel (p + 1) acc key ec err
        else if c = '}' then (acc, p, err)
        else if c = ',' then
          if ec then parseObjectLoop s fuel (p + 1) acc key false err
          else (acc, p, .expected_attribute_but_got_comma)
        else if key = [] then
          if ec then (acc, p, .expected_comma_before_next_attribute)
          else
            let r := parseValue s fuel p err
            let key2 := keyOfString r.1
            let err2 := if key2 = [] then .expected_string_attribute_key else r.2.2
            if err2 = .ok then parseObjectLoop s fuel (r.2.1 + 1) acc key2 ec err2
            else (acc, r.2.1, err2)
        else
          if c = ':' then
            let r := parseValue s fuel (p + 1) err
            let acc2 := insertPair acc key r.1
            if r.2.2 = .ok then parseObjectLoop s fuel (r.2.1 + 1) acc2 [] true r.2.2
            else (acc2, r.2.1, r.2.2)
          else (acc, p + 1, .expected_colon_but_got_different_character_instead)
      else (acc, p, err)

/-- The `for` loop of `JsonParser::parse_array`.  Unlike the object loop,
an item that begins while `expect_comma` is set is parsed without complaint:
the flag is only consulted when an actual comma is found. -/
def parseArrayLoop (s : List Char) : Nat → Nat → List JsonValue → Bool →
    JsonParserError → List JsonValue × Nat × JsonParserError
  | 0, p, acc, _, err => (acc, p, err)
  | fuel + 1, p, acc, ec, err =>
      if p < s.length then
        let p1 := skipWs s p
        let c := getC s p1
        if c = ']' then (acc, p1, err)
        else if c = ',' then
          if ec then parseArrayLoop s fuel (p1 + 1) acc false err
          else (acc, p1, .expected_comma_before_next_array_item)
        else
          let r := parseValue s fuel p1 err
          let acc2 := acc ++ [r.1]
          if r.2.2 = .ok then parseArrayLoop s fuel (r.2.1 + 1) acc2 true r.2.2
          else (acc2, r.2.1, r.2.2)
      else (acc, p, err)

end

/-- The static entry point `JsonBase::parse(view, on_error)`: run the parser
from position 0, move the resulting tree into a `JsonBase`, and mark the
root with the generic `parse_error` when the parser recorded any error.
The `on_error` diagnostic callback only observes the parser state and is an
external collaborator, so it is not modelled.  The fuel `2 * |s| + 4`
dominates the source's recursion depth: along any chain of nested calls the
cursor advances at least once per two calls. -/
def JsonBase.parse (s : List Char) : JsonBase :=
  let r := parseValue s (2 * s.length + 4) 0 .ok
  if r.2.2 = .ok then { val := r.1, last_error := .ok }
  else { val := r.1, last_error := .parse_error }

/-- String payloads safe for a dump/parse round trip: the serializer applies
no escaping, so a quote in the content would terminate the re-parse early
and a trailing (or any) backslash would defeat the single-character
look-back. -/
def goodStr (c : List Char) : Bool :=
  !(decide ('"' ∈ c)) && !(decide ('\\' ∈ c))

mutual

/-- Trees whose dump re-parses exactly: no float leaf (its dump is empty,
see `JsonValue.dump`), every string payload and object key free of quotes
and backslashes, every object key non-empty, and keys pairwise distinct. -/
def good : JsonValue → Bool
  | .jobject l => goodPairs l
  | .jarray l => goodItems l
  | .jstring c => goodStr c
  | .jinteger _ => true
  | .jfloat _ => false
  | .jboolean _ => true
  | .jnull => true

/-- Key/value conditions of `good` for an object's pair list. -/
def goodPairs : List (List Char × JsonValue) → Bool
  | [] => true
  | (k, v) :: t =>
      !(decide (k = [])) && goodStr k && !(decide (k ∈ t.map Prod.fst)) &&
        good v && goodPairs t

/-- Item conditions of `good` for an array's element list. -/
def goodItems : List JsonValue → Bool
  | [] => true
  | v :: t => good v && goodItems t

end

mutual

/-- Fuel sufficient for `parseValue` to parse the dump of a value: one unit
for the `parseValue` call itself plus the loop budget for containers.
Used only to instantiate the fuel parameter in the round-trip theorems. -/
def need : JsonValue → Nat
  | .jobject l => needPairs l + 2
  | .jarray l => needItems l + 2
  | _ => 1

/-- Loop budget for an object's pair list: key iteration, value iteration
and separator iteration per pair, plus the nested value's own budget. -/
def needPairs : List (List Char × JsonValue) → Nat
  | [] => 0
  | (_, v) :: t => 3 + need v + needPairs t

/-- Loop budget for an array's element list. -/
def needItems : List JsonValue → Nat
  | [] => 0
  | v :: t => 2 + need v + needItems t

end

/-- The serialized text of an object's pair list from the viewpoint of the
re-parser: each pair as `"key":value`, pairs separated by commas, the list
closed by `}`.  `dump` produces exactly this shape (see the restructuring
lemmas below); this form drives the loop inductions. -/
def pairsText : List (List Char × JsonValue) → List Char
  | [] => ['}']
  | (k, v) :: t =>
      '"' :: k ++ '"' :: ':' :: v.dump ++
        (match t with
         | [] => ['}']
         | _ :: _ => ',' :: pairsText t)

/-- The serialized text of an array's element list, closed by `]`. -/
def itemsText : List JsonValue → List Char
  | [] => [']']
  | v :: t =>
      v.dump ++
        (match t with
         | [] => [']']
         | _ :: _ => ',' :: itemsText t)

/-- A character that terminates the numeric scan of
`parse_integer_or_double` and the digit run of the C conversion routines:
not a digit, not a sign, not a decimal point. -/
def stopper (c : Char) : Prop := isDigit c = false ∧ c ≠ '-' ∧ c ≠ '.'

/-- First-character test of claim C3: after the initial whitespace skip the
character at the cursor is none of the dispatch characters of
`JsonParser::parse`. -/
def badStart (s : List Char) : Bool :=
  let c := getC s (skipWs s 0)
  !(decide (c = '{')) && !(decide (c = '[')) && !(decide (c = '"')) &&
    !(decide (c = 't')) && !(decide (c = 'f')) && !(decide (c = 'n')) &&
    !(isDigit c) && !(decide (c = '-'))

/-- No terminating unescaped quote occurs in the given suffix, where
"unescaped" is judged — as the source judges it — by the single preceding
character threaded through as `prev`. -/
def noTermList (prev : Char) : List Char → Bool
  | [] => true
  | c :: t => !(decide (c = '"' ∧ prev ≠ '\\')) && noTermList c t

/-- The character immediately preceding position `n` of a suffix whose own
predecessor is `prev`. -/
def prevAt (prev : Char) (l : List Char) (n : Nat) : Char :=
  if n = 0 then prev else l.getD (n - 1) nul

/-- A statement form for the round-trip induction: parsing at a cursor whose
suffix starts with the dump of `v` (followed by a scan-stopping character)
reconstructs `v` and leaves the cursor on the last character of the dump,
for every fuel of the form `need v + slack`. -/
def RT (v : JsonValue) : Prop :=
  ∀ (s : List Char) (p : Nat) (rest : List Char) (slack : Nat),
    s.drop p = v.dump ++ rest →
    stopper (rest.headD nul) →
    parseValue s (need v + slack) p .ok = (v, p + v.dump.length - 1, .ok)

theorem toNat_ofNat_small (n : Nat) (h : n < 55296) : (Char.ofNat n).toNat = n := by
  have hv : n.isValidChar := Or.inl h
  simp only [Char.ofNat, dif_pos hv, Char.ofNatAux, Char.toNat, UInt32.toNat]
  simp [BitVec.toNat_ofNatLt]

theorem getC_of_drop {s : List Char} {p : Nat} {c : Char} {t : List Char}
    (h : s.drop p = c :: t) : getC s p = c := by
  have h0 : s[p]? = some c := by
    rw [← List.head?_drop, h]; rfl
  simp [getC, List.getD_eq_getElem?_getD, h0]

theorem drop_succ_of_drop {s : List Char} {p : Nat} {c : Char} {t : List Char}
    (h : s.drop p = c :: t) : s.drop (p + 1) = t := by
  have := List.drop_drop 1 p s
  rw [h] at this
  simpa using this.symm

theorem lt_length_of_drop {s : List Char} {p : Nat} {c : Char} {t : List Char}
    (h : s.drop p = c :: t) : p < s.length := by
  by_contra hp
  rw [List.drop_eq_nil_of_le (by omega)] at h
  exact List.noConfusion h

theorem drop_add_of_drop {s : List Char} {p : Nat} {u w : List Char}
    (h : s.drop p = u ++ w) : s.drop (p + u.length) = w := by
  have := List.drop_drop u.length p s
  rw [h, List.drop_left] at this
  exact this.symm

theorem skipWs_of_not_ws {s : List Char} {p : Nat} (h : isWs (getC s p) = false) :
    skipWs s p = p := by
  unfold skipWs
  rcases hd : s.drop p with _ | ⟨c, t⟩
  · simp [skipWsCount]
  · have := getC_of_drop hd
    rw [this] at h
    simp [skipWsCount, h]

theorem ne_of_toNat {c d : Char} (h : c.toNat ≠ d.toNat) : c ≠ d :=
  fun h' => h (congrArg Char.toNat h')

theorem isDigit_toNat {c : Char} (h : isDigit c = true) :
    48 ≤ c.toNat ∧ c.toNat ≤ 57 := by
  simpa [isDigit] using h

/-- A digit character is none of the parser's structural characters: this
drives the dispatch in `parseValue` and the loop branch selection when the
inspected character is an abstract digit of a serialized integer. -/
theorem digit_facts {c : Char} (h : isDigit c = true) :
    isWs c = false ∧ c ≠ '{' ∧ c ≠ '[' ∧ c ≠ '"' ∧ c ≠ 't' ∧ c ≠ 'f' ∧
      c ≠ 'n' ∧ c ≠ '}' ∧ c ≠ ']' ∧ c ≠ ',' ∧ c ≠ ':' ∧ c ≠ '-' ∧ c ≠ '.' ∧
      c ≠ '+' := by
  obtain ⟨h1, h2⟩ := isDigit_toNat h
  refine ⟨?_, ?_, ?_, ?_, ?_, ?_, ?_, ?_, ?_, ?_, ?_, ?_, ?_, ?_⟩
  · by_contra hw
    rw [Bool.not_eq_false] at hw
    simp only [isWs, Bool.or_eq_true, decide_eq_true_eq] at hw
    rcases hw with (h' | h') | h' <;> subst h' <;>
      first
      | exact absurd h1 (by decide)
      | exact absurd h2 (by decide)
  all_goals
    intro h'
    subst h'
    first
    | exact absurd h1 (by decide)
    | exact absurd h2 (by decide)

theorem natDigits_ne_nil (n : Nat) : natDigits n ≠ [] := by
  rw [natDigits]
  split <;> simp

theorem natDigits_all_digits (n : Nat) : ∀ c ∈ natDigits n, isDigit c = true := by
  induction n using Nat.strong_induction_on with
  | _ n ih =>
    rw [natDigits]
    split
    · intro c hc
      simp only [List.mem_singleton] at hc
      subst hc
      simp only [isDigit, Bool.and_eq_true, decide_eq_true_eq]
      rw [toNat_ofNat_small (48 + n) (by omega)]
      omega
    · intro c hc
      rcases List.mem_append.mp hc with h | h
      · exact ih (n / 10) (Nat.div_lt_self (by omega) (by omega)) c h
      · simp only [List.mem_singleton] at h
        subst h
        simp only [isDigit, Bool.and_eq_true, decide_eq_true_eq]
        rw [toNat_ofNat_small (48 + n % 10) (by omega)]
        omega

theorem foldl_natDigits (n : Nat) :
    ∀ a, List.foldl (fun a c => 10 * a + (c.toNat - 48)) a (natDigits n) =
      a * 10 ^ (natDigits n).length + n := by
  induction n using Nat.strong_induction_on with
  | _ n ih =>
    intro a
    rw [natDigits]
    split
    · next h =>
      simp only [List.foldl_cons, List.foldl_nil, List.length_cons, List.length_nil]
      rw [toNat_ofNat_small (48 + n) (by omega)]
      ring_nf
      omega
    · next h =>
      rw [List.foldl_append, ih (n / 10) (Nat.div_lt_self (by omega) (by omega)) a]
      simp only [List.foldl_cons, List.foldl_nil, List.length_append, List.length_cons,
        List.length_nil]
      rw [toNat_ofNat_small (48 + n % 10) (by omega)]
      rw [pow_succ]
      have h10 : 10 * (n / 10) + n % 10 = n := by omega
      ring_nf
      omega

theorem digitsToNat_natDigits (n : Nat) : digitsToNat (natDigits n) = n := by
  have := foldl_natDigits n 0
  simpa [digitsToNat] using this

theorem takeDigits_stop {r : List Char} (h : isDigit (r.headD nul) = false) :
    takeDigits r = [] := by
  cases r with
  | nil => rfl
  | cons c t => simp only [List.headD_cons] at h; simp [takeDigits, h]

theorem takeDigits_exact {d r : List Char} (hd : ∀ c ∈ d, isDigit c = true)
    (hr : isDigit (r.headD nul) = false) : takeDigits (d ++ r) = d := by
  induction d with
  | nil => simpa using takeDigits_stop hr
  | cons c t ih =>
    have hc : isDigit c = true := hd c (List.mem_cons_self c t)
    simp only [List.cons_append, takeDigits, hc, if_pos, List.append_eq]
    rw [ih (fun x hx => hd x (List.mem_cons_of_mem c hx))]

theorem numRun_exact {d r : List Char}
    (hd : ∀ c ∈ d, isDigit c = true ∨ c = '-')
    (hr : stopper (r.headD nul)) : numRun (d ++ r) = (d.length, false) := by
  induction d with
  | nil =>
    obtain ⟨h1, h2, h3⟩ := hr
    cases r with
    | nil => rfl
    | cons c t =>
      simp only [List.headD_cons] at h1 h2 h3
      simp [numRun, h1, h2, h3]
  | cons c t ih =>
    rcases hd c (List.mem_cons_self c t) with hc | hc
    · obtain ⟨_, _, _, _, _, _, _, _, _, _, _, hm, hdot, _⟩ := digit_facts hc
      simp only [List.cons_append, numRun, hm, hdot, hc, if_neg, if_pos,
        ite_false, ite_true, List.append_eq]
      rw [ih (fun x hx => hd x (List.mem_cons_of_mem c hx))]
      simp
    · subst hc
      simp only [List.cons_append, numRun, if_pos, List.append_eq]
      rw [ih (fun x hx => hd x (List.mem_cons_of_mem _ hx))]
      simp

theorem intDump_ne_nil (n : Int) : intDump n ≠ [] := by
  unfold intDump
  split
  · simp
  · exact natDigits_ne_nil _

theorem intDump_chars (n : Int) : ∀ c ∈ intDump n, isDigit c = true ∨ c = '-' := by
  unfold intDump
  split
  · intro c hc
    rcases List.mem_cons.mp hc with h | h
    · exact Or.inr h
    · exact Or.inl (natDigits_all_digits _ c h)
  · intro c hc
    exact Or.inl (natDigits_all_digits _ c hc)

theorem strtolM_intDump {r : List Char} (n : Int) (hr : isDigit (r.headD nul) = false) :
    strtolM (intDump n ++ r) = (n, (intDump n).length) := by
  by_cases hn : n < 0
  · simp only [intDump, if_pos hn, List.cons_append, strtolM]
    rw [if_pos trivial]
    rw [takeDigits_exact (natDigits_all_digits _) hr]
    rw [if_neg (natDigits_ne_nil _)]
    rw [digitsToNat_natDigits]
    have h1 : (((-n).toNat : Int)) = -n := Int.toNat_of_nonneg (by omega)
    rw [h1]
    simp [List.length_cons]
  · obtain ⟨c, t, hct⟩ := List.exists_cons_of_ne_nil (intDump_ne_nil n)
    have hc : isDigit c = true := by
      rcases intDump_chars n c (by rw [hct]; exact List.mem_cons_self c t) with h | h
      · exact h
      · exfalso
        subst h
        rw [intDump, if_neg hn] at hct
        have := natDigits_all_digits n.toNat '-' (by rw [hct]; exact List.mem_cons_self _ t)
        exact absurd this (by decide)
    obtain ⟨_, _, _, _, _, _, _, _, _, _, _, hm, _, hplus⟩ := digit_facts hc
    rw [hct, List.cons_append, strtolM]
    rw [if_neg hm, if_neg hplus]
    rw [← List.cons_append, ← hct]
    have hall : ∀ x ∈ intDump n, isDigit x = true := by
      intro x hx
      rw [intDump, if_neg hn] at hx
      exact natDigits_all_digits _ x hx
    rw [takeDigits_exact hall hr]
    have h2 : digitsToNat (intDump n) = n.toNat := by
      rw [intDump, if_neg hn]
      exact digitsToNat_natDigits _
    show (((digitsToNat (intDump n) : Int)), (intDump n).length) = (n, (intDump n).length)
    rw [h2]
    have h1 : ((n.toNat : Int)) = n := Int.toNat_of_nonneg (by omega)
    rw [h1]

theorem setLast_append {x y : List Char} (c : Char) (hy : y ≠ []) :
    setLast (x ++ y) c = x ++ setLast y c := by
  simp [setLast, List.dropLast_append_of_ne_nil _ hy, List.append_assoc]

theorem setLast_concat (x : List Char) (a c : Char) : setLast (x ++ [a]) c = x ++ [c] := by
  simp [setLast]

theorem dumpPairs_ne_nil (k : List Char) (v : JsonValue)
    (t : List (List Char × JsonValue)) : dumpPairs ((k, v) :: t) ≠ [] := by
  simp [dumpPairs]

theorem dumpItems_ne_nil (v : JsonValue) (t : List JsonValue) :
    dumpItems (v :: t) ≠ [] := by
  cases hd : v.dump with
  | nil => simp [dumpItems, hd]
  | cons c u => simp [dumpItems, hd]

theorem setLast_dumpPairs (t : List (List Char × JsonValue)) :
    ∀ (k : List Char) (v : JsonValue),
      setLast (dumpPairs ((k, v) :: t)) '}' = pairsText ((k, v) :: t) := by
  induction t with
  | nil =>
    intro k v
    have h : dumpPairs [(k, v)] = ('"' :: k ++ '"' :: ':' :: v.dump) ++ [','] := by
      simp [dumpPairs]
    rw [h, setLast_concat]
    simp [pairsText]
  | cons hd2 t ih =>
    rcases hd2 with ⟨k2, v2⟩
    intro k v
    have h : dumpPairs ((k, v) :: (k2, v2) :: t) =
        ('"' :: k ++ '"' :: ':' :: v.dump ++ [',']) ++ dumpPairs ((k2, v2) :: t) := by
      simp [dumpPairs]
    rw [h, setLast_append _ (dumpPairs_ne_nil _ _ _), ih k2 v2]
    simp [pairsText]

theorem setLast_dumpItems (t : List JsonValue) :
    ∀ (v : JsonValue), setLast (dumpItems (v :: t)) ']' = itemsText (v :: t) := by
  induction t with
  | nil =>
    intro v
    have h : dumpItems [v] = v.dump ++ [','] := by simp [dumpItems]
    rw [h, setLast_concat]
    simp [itemsText]
  | cons v2 t ih =>
    intro v
    have h : dumpItems (v :: v2 :: t) = (v.dump ++ [',']) ++ dumpItems (v2 :: t) := by
      simp [dumpItems]
    rw [h, setLast_append _ (dumpItems_ne_nil _ _), ih v2]
    simp [itemsText]

theorem dump_jobject (l : List (List Char × JsonValue)) :
    (JsonValue.jobject l).dump = '{' :: pairsText l := by
  cases l with
  | nil => simp [JsonValue.dump, pairsText]
  | cons h t =>
    rcases h with ⟨k, v⟩
    rw [JsonValue.dump, setLast_dumpPairs]

theorem dump_jarray (l : List JsonValue) :
    (JsonValue.jarray l).dump = '[' :: itemsText l := by
  cases l with
  | nil => simp [JsonValue.dump, itemsText]
  | cons v t => rw [JsonValue.dump, setLast_dumpItems]

theorem strLoop_clean {k : List Char} {prev : Char} (rest : List Char)
    (h1 : '"' ∉ k) (h2 : '\\' ∉ k) (hp : prev ≠ '\\') :
    strLoop prev (k ++ '"' :: rest) = (k, k.length, true) := by
  induction k generalizing prev with
  | nil => simp [strLoop, hp]
  | cons c t ih =>
    have hc : c ≠ '"' := fun h => h1 (h ▸ List.mem_cons_self c t)
    have hcb : c ≠ '\\' := fun h => h2 (h ▸ List.mem_cons_self c t)
    have hcond : ¬(c = '"' ∧ prev ≠ '\\') := fun h => hc h.1
    simp only [List.cons_append, strLoop, if_neg hcond]
    simp [ih (fun h => h1 (List.mem_cons_of_mem c h))
        (fun h => h2 (List.mem_cons_of_mem c h)) hcb]

theorem RT_jstring {c : List Char} (h : goodStr c = true) : RT (.jstring c) := by
  intro s p rest slack hdrop hstop
  have hq : '"' ∉ c := by
    simp only [goodStr, Bool.and_eq_true, Bool.not_eq_true', decide_eq_false_iff_not] at h
    exact h.1
  have hb : '\\' ∉ c := by
    simp only [goodStr, Bool.and_eq_true, Bool.not_eq_true', decide_eq_false_iff_not] at h
    exact h.2
  have hdrop' : s.drop p = '"' :: (c ++ '"' :: rest) := by
    rw [hdrop]; simp [JsonValue.dump]
  have h0 : getC s p = '"' := getC_of_drop hdrop'
  have h1 : s.drop (p + 1) = c ++ '"' :: rest := drop_succ_of_drop hdrop'
  have hskip : skipWs s p = p := skipWs_of_not_ws (by rw [h0]; decide)
  have hfuel : need (JsonValue.jstring c) + slack = slack + 1 := by
    simp [need]; omega
  rw [hfuel]
  simp only [parseValue, hskip, h0]
  norm_num
  simp only [parseString, h0, h1]
  rw [strLoop_clean rest hq hb (by decide)]
  have hlen : (JsonValue.jstring c).dump.length = c.length + 2 := by
    simp [JsonValue.dump]
  rw [hlen]
  have : p + (c.length + 2) - 1 = p + 1 + c.length := by omega
  rw [this]
  simp

theorem RT_jinteger (n : Int) : RT (.jinteger n) := by
  intro s p rest slack hdrop hstop
  have hdump : (JsonValue.jinteger n).dump = intDump n := rfl
  rw [hdump] at hdrop ⊢
  obtain ⟨c0, t0, hct⟩ := List.exists_cons_of_ne_nil (intDump_ne_nil n)
  have hdrop' : s.drop p = c0 :: (t0 ++ rest) := by rw [hdrop, hct]; simp
  have h0 : getC s p = c0 := getC_of_drop hdrop'
  have hnum : numRun (s.drop p) = ((intDump n).length, false) := by
    rw [hdrop]; exact numRun_exact (intDump_chars n) hstop
  have hstr : strtolM (s.drop p) = (n, (intDump n).length) := by
    rw [hdrop]; exact strtolM_intDump n hstop.1
  have hlenpos : 0 < (intDump n).length := List.length_pos.mpr (intDump_ne_nil n)
  have hfuel : need (JsonValue.jinteger n) + slack = slack + 1 := by
    simp [need]; omega
  rw [hfuel]
  rcases intDump_chars n c0 (by rw [hct]; exact List.mem_cons_self c0 t0) with hc | hc
  · obtain ⟨hw, d1, d2, d3, d4, d5, d6, _, _, _, _, _, _, _⟩ := digit_facts hc
    have hskip : skipWs s p = p := skipWs_of_not_ws (by rw [h0]; exact hw)
    simp only [parseValue, hskip, h0, if_neg d1, if_neg d2, if_neg d3,
      if_neg (not_or.mpr ⟨d4, d5⟩), if_neg d6, if_pos (Or.inl hc)]
    simp only [parseNumber, hnum, hstr]
    simp [intDump_ne_nil n, hlenpos]
  · subst hc
    have hskip : skipWs s p = p := skipWs_of_not_ws (by rw [h0]; decide)
    simp only [parseValue, hskip, h0]
    norm_num
    simp only [parseNumber, hnum, hstr]
    simp [intDump_ne_nil n, hlenpos]

theorem RT_jboolean (b : Bool) : RT (.jboolean b) := by
  intro s p rest slack hdrop hstop
  cases b with
  | true =>
    have hdrop' : s.drop p = 't' :: ('r' :: 'u' :: 'e' :: rest) := by
      rw [hdrop]; simp [JsonValue.dump]
    have h0 : getC s p = 't' := getC_of_drop hdrop'
    have hskip : skipWs s p = p := skipWs_of_not_ws (by rw [h0]; decide)
    have hfuel : need (JsonValue.jboolean true) + slack = slack + 1 := by
      simp [need]; omega
    rw [hfuel]
    simp only [parseValue, hskip, h0]
    norm_num
    simp only [parseBoolean, hdrop']
    simp [JsonValue.dump]
  | false =>
    have hdrop' : s.drop p = 'f' :: ('a' :: 'l' :: 's' :: 'e' :: rest) := by
      rw [hdrop]; simp [JsonValue.dump]
    have h0 : getC s p = 'f' := getC_of_drop hdrop'
    have hskip : skipWs s p = p := skipWs_of_not_ws (by rw [h0]; decide)
    have hfuel : need (JsonValue.jboolean false) + slack = slack + 1 := by
      simp [need]; omega
    rw [hfuel]
    simp only [parseValue, hskip, h0]
    norm_num
    simp only [parseBoolean, hdrop']
    simp [JsonValue.dump]

theorem RT_jnull : RT .jnull := by
  intro s p rest slack hdrop hstop
  have hdrop' : s.drop p = 'n' :: ('u' :: 'l' :: 'l' :: rest) := by
    rw [hdrop]; simp [JsonValue.dump]
  have h0 : getC s p = 'n' := getC_of_drop hdrop'
  have h1 : getC s (p + 1) = 'u' := getC_of_drop (drop_succ_of_drop hdrop')
  have h2 : getC s (p + 2) = 'l' := by
    have := drop_succ_of_drop (drop_succ_of_drop hdrop')
    rw [show p + 2 = p + 1 + 1 from rfl]
    exact getC_of_drop this
  have h3 : getC s (p + 3) = 'l' := by
    have := drop_succ_of_drop (drop_succ_of_drop (drop_succ_of_drop hdrop'))
    rw [show p + 3 = p + 1 + 1 + 1 from rfl]
    exact getC_of_drop this
  have hskip : skipWs s p = p := skipWs_of_not_ws (by rw [h0]; decide)
  have hfuel : need JsonValue.jnull + slack = slack + 1 := by
    simp [need]; omega
  rw [hfuel]
  simp only [parseValue, hskip, h0]
  norm_num
  simp only [parseNull, fourAt, h0, h1, h2, h3]
  simp [JsonValue.dump]

theorem insertPair_fresh {l : List (List Char × JsonValue)} {k : List Char}
    (v : JsonValue) (h : k ∉ l.map Prod.fst) : insertPair l k v = l ++ [(k, v)] := by
  induction l with
  | nil => rfl
  | cons hd t ih =>
    rcases hd with ⟨k', v'⟩
    simp only [List.map_cons, List.mem_cons, not_or] at h
    have hne : ¬ k' = k := fun he => h.1 (he.symm)
    simp only [insertPair, if_neg hne, List.cons_append]
    rw [ih h.2]

theorem dump_length_pos {v : JsonValue} (h : good v = true) : 0 < v.dump.length := by
  cases v with
  | jobject l => rw [dump_jobject]; simp
  | jarray l => rw [dump_jarray]; simp
  | jstring c => simp [JsonValue.dump]
  | jinteger n => exact List.length_pos.mpr (intDump_ne_nil n)
  | jfloat q => exact absurd h (by simp [good])
  | jboolean b => cases b <;> simp [JsonValue.dump]
  | jnull => simp [JsonValue.dump]

/-- The first character of the dump of a round-trippable value is a value
start: not whitespace and none of the container delimiters, so the array
loop's dispatch always selects the item branch for it. -/
theorem dump_head_facts {v : JsonValue} (h : good v = true) :
    ∃ c cs, v.dump = c :: cs ∧ isWs c = false ∧ c ≠ ']' ∧ c ≠ ',' ∧ c ≠ '}' := by
  cases v with
  | jobject l =>
    exact ⟨'{', pairsText l, dump_jobject l, by decide, by decide, by decide, by decide⟩
  | jarray l =>
    exact ⟨'[', itemsText l, dump_jarray l, by decide, by decide, by decide, by decide⟩
  | jstring c =>
    exact ⟨'"', c ++ ['"'], by simp [JsonValue.dump], by decide, by decide, by decide,
      by decide⟩
  | jinteger n =>
    obtain ⟨c0, t0, hct⟩ := List.exists_cons_of_ne_nil (intDump_ne_nil n)
    rcases intDump_chars n c0 (by rw [hct]; exact List.mem_cons_self c0 t0) with hc | hc
    · obtain ⟨hw, _, _, _, _, _, _, h7, h8, h9, _, _, _, _⟩ := digit_facts hc
      exact ⟨c0, t0, hct, hw, h8, h9, h7⟩
    · subst hc
      exact ⟨'-', t0, hct, by decide, by decide, by decide, by decide⟩
  | jfloat q => exact absurd h (by simp [good])
  | jboolean b =>
    cases b with
    | true =>
      exact ⟨'t', ['r', 'u', 'e'], by simp [JsonValue.dump], by decide, by decide,
        by decide, by decide⟩
    | false =>
      exact ⟨'f', ['a', 'l', 's', 'e'], by simp [JsonValue.dump], by decide, by decide,
        by decide, by decide⟩
  | jnull =>
    exact ⟨'n', ['u', 'l', 'l'], by simp [JsonValue.dump], by decide, by decide,
      by decide, by decide⟩

theorem pairsText_length_pos (l : List (List Char × JsonValue)) :
    0 < (pairsText l).length := by
  cases l with
  | nil => simp [pairsText]
  | cons h t => rcases h with ⟨k, v⟩; simp [pairsText]

theorem itemsText_length_pos {l : List JsonValue}
    (h : ∀ x ∈ l, good x = true) : 0 < (itemsText l).length := by
  cases l with
  | nil => simp [itemsText]
  | cons v t =>
    have := dump_length_pos (h v (List.mem_cons_self v t))
    simp [itemsText]
    omega

theorem need_jstring (c : List Char) : need (JsonValue.jstring c) = 1 := by simp [need]

theorem need_jobject (l : List (List Char × JsonValue)) :
    need (JsonValue.jobject l) = needPairs l + 2 := by simp [need]

theorem need_jarray (l : List JsonValue) :
    need (JsonValue.jarray l) = needItems l + 2 := by simp [need]

theorem needPairs_cons (k : List Char) (v : JsonValue)
    (t : List (List Char × JsonValue)) :
    needPairs ((k, v) :: t) = 3 + need v + needPairs t := by simp [needPairs]

theorem needItems_cons (v : JsonValue) (t : List JsonValue) :
    needItems (v :: t) = 2 + need v + needItems t := by simp [needItems]

theorem objLoop_pair {s : List Char} {p : Nat} {k : List Char} {v : JsonValue}
    {acc : List (List Char × JsonValue)} {rest2 : List Char} (G : Nat)
    (hRTv : RT v) (hk : k ≠ []) (hgsk : goodStr k = true)
    (hdv : 0 < v.dump.length)
    (hfresh : k ∉ acc.map Prod.fst)
    (hdrop : s.drop p = '"' :: k ++ '"' :: ':' :: v.dump ++ rest2)
    (hstop2 : stopper (rest2.headD nul)) :
    parseObjectLoop s ((2 + need v + G) + 1) p acc [] false .ok =
      parseObjectLoop s (1 + need v + G) (p + k.length + 3 + v.dump.length)
        (acc ++ [(k, v)]) [] true .ok := by
  have hp : p < s.length := lt_length_of_drop hdrop
  have h0 : getC s p = '"' := getC_of_drop hdrop
  have hkey : parseValue s (2 + need v + G) p .ok =
      (.jstring k, p + k.length + 1, .ok) := by
    have hdropk : s.drop p = (JsonValue.jstring k).dump ++ (':' :: v.dump ++ rest2) := by
      rw [hdrop]; simp [JsonValue.dump]
    have hstopk : stopper ((':' :: v.dump ++ rest2).headD nul) := by
      show stopper ':'
      exact ⟨by decide, by decide, by decide⟩
    have h2 := RT_jstring hgsk s p (':' :: v.dump ++ rest2) (1 + need v + G) hdropk hstopk
    rw [show need (JsonValue.jstring k) + (1 + need v + G) = 2 + need v + G by
      rw [need_jstring]; omega] at h2
    rw [show (JsonValue.jstring k).dump.length = k.length + 2 by
      simp [JsonValue.dump]] at h2
    rw [show p + (k.length + 2) - 1 = p + k.length + 1 by omega] at h2
    exact h2
  have hdrop2 : s.drop (p + k.length + 2) = ':' :: (v.dump ++ rest2) := by
    have h3 : s.drop p = ('"' :: k ++ ['"']) ++ (':' :: (v.dump ++ rest2)) := by
      rw [hdrop]; simp
    have h4 := drop_add_of_drop h3
    rw [show ('"' :: k ++ ['"']).length = k.length + 2 by simp] at h4
    rw [show p + (k.length + 2) = p + k.length + 2 by omega] at h4
    exact h4
  have hp2 : p + k.length + 2 < s.length := lt_length_of_drop hdrop2
  have h02 : getC s (p + k.length + 2) = ':' := getC_of_drop hdrop2
  have hdrop3 : s.drop (p + k.length + 3) = v.dump ++ rest2 := by
    have h4 := drop_succ_of_drop hdrop2
    rw [show p + k.length + 2 + 1 = p + k.length + 3 by omega] at h4
    exact h4
  have hval : parseValue s (1 + need v + G) (p + k.length + 3) .ok =
      (v, p + k.length + 2 + v.dump.length, .ok) := by
    have h2 := hRTv s (p + k.length + 3) rest2 (1 + G) hdrop3 hstop2
    rw [show need v + (1 + G) = 1 + need v + G by omega] at h2
    rw [show p + k.length + 3 + v.dump.length - 1 = p + k.length + 2 + v.dump.length by
      omega] at h2
    exact h2
  conv_lhs => rw [parseObjectLoop]
  rw [if_pos hp, h0]
  rw [if_neg (by decide : ¬ isWs '"' = true)]
  rw [if_neg (by decide : ¬ ('"' : Char) = '}')]
  rw [if_neg (by decide : ¬ ('"' : Char) = ',')]
  rw [if_pos rfl]
  rw [if_neg (by decide : ¬ (false : Bool) = true)]
  rw [hkey]
  simp only [keyOfString]
  rw [if_neg hk]
  rw [if_pos rfl]
  conv_lhs => rw [show (2 : Nat) + need v + G = (1 + need v + G) + 1 by omega]
  conv_lhs => rw [parseObjectLoop]
  rw [show p + k.length + 1 + 1 = p + k.length + 2 by omega]
  rw [if_pos hp2, h02]
  rw [if_neg (by decide : ¬ isWs ':' = true)]
  rw [if_neg (by decide : ¬ (':' : Char) = '}')]
  rw [if_neg (by decide : ¬ (':' : Char) = ',')]
  rw [if_neg hk]
  rw [if_pos rfl]
  rw [show p + k.length + 2 + 1 = p + k.length + 3 by omega]
  rw [hval]
  simp only [insertPair_fresh v hfresh]
  rw [show p + k.length + 2 + v.dump.length + 1 = p + k.length + 3 + v.dump.length by
    omega]
  simp

theorem needPairs_nil : needPairs [] = 0 := by simp [needPairs]

theorem needItems_nil : needItems [] = 0 := by simp [needItems]

theorem objLoop_rt :
    ∀ (pairs : List (List Char × JsonValue)),
      (∀ kv ∈ pairs, RT kv.2 ∧ kv.1 ≠ [] ∧ goodStr kv.1 = true ∧ 0 < kv.2.dump.length) →
      (pairs.map Prod.fst).Nodup →
      ∀ (s : List Char) (p : Nat) (rest : List Char)
        (acc : List (List Char × JsonValue)) (slack : Nat),
        s.drop p = pairsText pairs ++ rest →
        (∀ kv ∈ pairs, kv.1 ∉ acc.map Prod.fst) →
        parseObjectLoop s (needPairs pairs + 1 + slack) p acc [] false .ok =
          (acc ++ pairs, p + (pairsText pairs).length - 1, .ok) := by
  intro pairs
  induction pairs with
  | nil =>
    intro _ _ s p rest acc slack hdrop hfresh
    have hdrop' : s.drop p = '}' :: rest := by rw [hdrop]; simp [pairsText]
    have hp : p < s.length := lt_length_of_drop hdrop'
    have h0 : getC s p = '}' := getC_of_drop hdrop'
    rw [show needPairs [] + 1 + slack = slack + 1 by rw [needPairs_nil]; omega]
    conv_lhs => rw [parseObjectLoop]
    rw [if_pos hp, h0]
    rw [if_neg (by decide : ¬ isWs '}' = true)]
    rw [if_pos rfl]
    simp [pairsText]
  | cons hd t ih =>
    rcases hd with ⟨k, v⟩
    intro H hnd s p rest acc slack hdrop hfresh
    obtain ⟨hRTv, hk, hgsk, hdv⟩ := H (k, v) (List.mem_cons_self _ t)
    have Ht : ∀ kv ∈ t, RT kv.2 ∧ kv.1 ≠ [] ∧ goodStr kv.1 = true ∧
        0 < kv.2.dump.length := fun kv hkv => H kv (List.mem_cons_of_mem _ hkv)
    rw [List.map_cons, List.nodup_cons] at hnd
    have hfreshk : k ∉ acc.map Prod.fst := hfresh (k, v) (List.mem_cons_self _ t)
    cases t with
    | nil =>
      have hdropPair : s.drop p = '"' :: k ++ '"' :: ':' :: v.dump ++ ('}' :: rest) := by
        rw [hdrop]; simp [pairsText]
      rw [show needPairs ((k, v) :: []) + 1 + slack = (2 + need v + (1 + slack)) + 1 by
        rw [needPairs_cons, needPairs_nil]; omega]
      rw [objLoop_pair (1 + slack) hRTv hk hgsk hdv hfreshk hdropPair
        (by show stopper '}'; exact ⟨by decide, by decide, by decide⟩)]
      have hdrop3 : s.drop (p + k.length + 3 + v.dump.length) = '}' :: rest := by
        have h3 : s.drop p = ('"' :: k ++ '"' :: ':' :: v.dump) ++ ('}' :: rest) := by
          rw [hdropPair]; try simp
        have h4 := drop_add_of_drop h3
        rw [show ('"' :: k ++ '"' :: ':' :: v.dump).length =
          k.length + 3 + v.dump.length by simp; try omega] at h4
        rw [show p + (k.length + 3 + v.dump.length) =
          p + k.length + 3 + v.dump.length by omega] at h4
        exact h4
      have hp3 : p + k.length + 3 + v.dump.length < s.length := lt_length_of_drop hdrop3
      have h03 : getC s (p + k.length + 3 + v.dump.length) = '}' := getC_of_drop hdrop3
      rw [show (1 : Nat) + need v + (1 + slack) = (need v + 1 + slack) + 1 by omega]
      conv_lhs => rw [parseObjectLoop]
      rw [if_pos hp3, h03]
      rw [if_neg (by decide : ¬ isWs '}' = true)]
      rw [if_pos rfl]
      have hlen : (pairsText ((k, v) :: [])).length = k.length + v.dump.length + 4 := by
        simp [pairsText]; omega
      rw [hlen]
      rw [show p + (k.length + v.dump.length + 4) - 1 =
        p + k.length + 3 + v.dump.length by omega]
    | cons hd2 t2 =>
      have hdropPair : s.drop p =
          '"' :: k ++ '"' :: ':' :: v.dump ++ (',' :: (pairsText (hd2 :: t2) ++ rest)) := by
        rw [hdrop]; simp [pairsText]
      rw [show needPairs ((k, v) :: hd2 :: t2) + 1 + slack =
        (2 + need v + (1 + needPairs (hd2 :: t2) + slack)) + 1 by
        rw [needPairs_cons]; omega]
      rw [objLoop_pair (1 + needPairs (hd2 :: t2) + slack) hRTv hk hgsk hdv hfreshk
        hdropPair (by show stopper ','; exact ⟨by decide, by decide, by decide⟩)]
      have hdrop3 : s.drop (p + k.length + 3 + v.dump.length) =
          ',' :: (pairsText (hd2 :: t2) ++ rest) := by
        have h3 : s.drop p = ('"' :: k ++ '"' :: ':' :: v.dump) ++
            (',' :: (pairsText (hd2 :: t2) ++ rest)) := by
          rw [hdropPair]; try simp
        have h4 := drop_add_of_drop h3
        rw [show ('"' :: k ++ '"' :: ':' :: v.dump).length =
          k.length + 3 + v.dump.length by simp; try omega] at h4
        rw [show p + (k.length + 3 + v.dump.length) =
          p + k.length + 3 + v.dump.length by omega] at h4
        exact h4
      have hp3 : p + k.length + 3 + v.dump.length < s.length := lt_length_of_drop hdrop3
      have h03 : getC s (p + k.length + 3 + v.dump.length) = ',' := getC_of_drop hdrop3
      rw [show (1 : Nat) + need v + (1 + needPairs (hd2 :: t2) + slack) =
        (need v + 1 + needPairs (hd2 :: t2) + slack) + 1 by omega]
      conv_lhs => rw [parseObjectLoop]
      rw [if_pos hp3, h03]
      rw [if_neg (by decide : ¬ isWs ',' = true)]
      rw [if_neg (by decide : ¬ (',' : Char) = '}')]
      rw [if_pos rfl]
      rw [if_pos rfl]
      have hdrop4 : s.drop (p + k.length + 3 + v.dump.length + 1) =
          pairsText (hd2 :: t2) ++ rest := drop_succ_of_drop hdrop3
      have hfresh2 : ∀ kv ∈ hd2 :: t2, kv.1 ∉ (acc ++ [(k, v)]).map Prod.fst := by
        intro kv hkv
        rw [List.map_append, List.mem_append]
        rintro (hmem | hmem)
        · exact hfresh kv (List.mem_cons_of_mem _ hkv) hmem
        · simp only [List.map_cons, List.map_nil, List.mem_singleton] at hmem
          exact hnd.1 (List.mem_map.mpr ⟨kv, hkv, hmem⟩)
      rw [show need v + 1 + needPairs (hd2 :: t2) + slack =
        needPairs (hd2 :: t2) + 1 + (need v + slack) by omega]
      rw [ih Ht hnd.2 s (p + k.length + 3 + v.dump.length + 1) rest (acc ++ [(k, v)])
        (need v + slack) hdrop4 hfresh2]
      have hlen : (pairsText ((k, v) :: hd2 :: t2)).length =
          k.length + v.dump.length + 4 + (pairsText (hd2 :: t2)).length := by
        simp [pairsText]; omega
      rw [hlen]
      have hptpos := pairsText_length_pos (hd2 :: t2)
      rw [show p + k.length + 3 + v.dump.length + 1 +
        (pairsText (hd2 :: t2)).length - 1 =
        p + (k.length + v.dump.length + 4 + (pairsText (hd2 :: t2)).length) - 1 by omega]
      simp

theorem arrLoop_item {s : List Char} {p : Nat} {v : JsonValue}
    {acc : List JsonValue} {rest2 : List Char} (G : Nat) (ec : Bool)
    (hRTv : RT v) (hgv : good v = true)
    (hdrop : s.drop p = v.dump ++ rest2)
    (hstop2 : stopper (rest2.headD nul)) :
    parseArrayLoop s ((need v + 1 + G) + 1) p acc ec .ok =
      parseArrayLoop s (need v + 1 + G) (p + v.dump.length) (acc ++ [v]) true .ok := by
  obtain ⟨c0, cs0, hdump, hw, hbr, hcm, _⟩ := dump_head_facts hgv
  have hdrop' : s.drop p = c0 :: (cs0 ++ rest2) := by rw [hdrop, hdump]; simp
  have hp : p < s.length := lt_length_of_drop hdrop'
  have h0 : getC s p = c0 := getC_of_drop hdrop'
  have hskip : skipWs s p = p := skipWs_of_not_ws (by rw [h0]; exact hw)
  have hdvpos : 0 < v.dump.length := dump_length_pos hgv
  have hval : parseValue s (need v + 1 + G) p .ok = (v, p + v.dump.length - 1, .ok) := by
    have h2 := hRTv s p rest2 (1 + G) hdrop hstop2
    rw [show need v + (1 + G) = need v + 1 + G by omega] at h2
    exact h2
  conv_lhs => rw [parseArrayLoop]
  rw [if_pos hp]
  simp only [hskip, h0, hval]
  rw [if_neg hbr, if_neg hcm]
  simp
  rw [show p + v.dump.length - 1 + 1 = p + v.dump.length by omega]

theorem arrLoop_rt :
    ∀ (items : List JsonValue),
      (∀ x ∈ items, RT x ∧ good x = true) →
      ∀ (s : List Char) (p : Nat) (rest : List Char) (acc : List JsonValue)
        (slack : Nat) (ec : Bool),
        s.drop p = itemsText items ++ rest →
        parseArrayLoop s (needItems items + 1 + slack) p acc ec .ok =
          (acc ++ items, p + (itemsText items).length - 1, .ok) := by
  intro items
  induction items with
  | nil =>
    intro _ s p rest acc slack ec hdrop
    have hdrop' : s.drop p = ']' :: rest := by rw [hdrop]; simp [itemsText]
    have hp : p < s.length := lt_length_of_drop hdrop'
    have h0 : getC s p = ']' := getC_of_drop hdrop'
    have hskip : skipWs s p = p := skipWs_of_not_ws (by rw [h0]; decide)
    rw [show needItems [] + 1 + slack = slack + 1 by rw [needItems_nil]; omega]
    conv_lhs => rw [parseArrayLoop]
    rw [if_pos hp]
    simp only [hskip, h0]
    rw [if_pos trivial]
    simp [itemsText]
  | cons v t ih =>
    intro H s p rest acc slack ec hdrop
    obtain ⟨hRTv, hgv⟩ := H v (List.mem_cons_self v t)
    have Ht : ∀ x ∈ t, RT x ∧ good x = true :=
      fun x hx => H x (List.mem_cons_of_mem _ hx)
    have hdvpos : 0 < v.dump.length := dump_length_pos hgv
    cases t with
    | nil =>
      have hdropItem : s.drop p = v.dump ++ (']' :: rest) := by
        rw [hdrop]; simp [itemsText]
      rw [show needItems (v :: []) + 1 + slack = (need v + 1 + (1 + slack)) + 1 by
        rw [needItems_cons, needItems_nil]; omega]
      rw [arrLoop_item (1 + slack) ec hRTv hgv hdropItem
        (by show stopper ']'; exact ⟨by decide, by decide, by decide⟩)]
      have hdrop4 : s.drop (p + v.dump.length) = ']' :: rest := drop_add_of_drop hdropItem
      have hp4 : p + v.dump.length < s.length := lt_length_of_drop hdrop4
      have h04 : getC s (p + v.dump.length) = ']' := getC_of_drop hdrop4
      have hskip4 : skipWs s (p + v.dump.length) = p + v.dump.length :=
        skipWs_of_not_ws (by rw [h04]; decide)
      rw [show need v + 1 + (1 + slack) = (need v + 1 + slack) + 1 by omega]
      conv_lhs => rw [parseArrayLoop]
      rw [if_pos hp4]
      simp only [hskip4, h04]
      rw [if_pos trivial]
      have hlen : (itemsText (v :: [])).length = v.dump.length + 1 := by
        simp [itemsText]
      rw [hlen]
      rw [show p + (v.dump.length + 1) - 1 = p + v.dump.length by omega]
    | cons v2 t2 =>
      have hdropItem : s.drop p = v.dump ++ (',' :: (itemsText (v2 :: t2) ++ rest)) := by
        rw [hdrop]; simp [itemsText]
      rw [show needItems (v :: v2 :: t2) + 1 + slack =
        (need v + 1 + (1 + needItems (v2 :: t2) + slack)) + 1 by
        rw [needItems_cons]; omega]
      rw [arrLoop_item (1 + needItems (v2 :: t2) + slack) ec hRTv hgv hdropItem
        (by show stopper ','; exact ⟨by decide, by decide, by decide⟩)]
      have hdrop4 : s.drop (p + v.dump.length) = ',' :: (itemsText (v2 :: t2) ++ rest) :=
        drop_add_of_drop hdropItem
      have hp4 : p + v.dump.length < s.length := lt_length_of_drop hdrop4
      have h04 : getC s (p + v.dump.length) = ',' := getC_of_drop hdrop4
      have hskip4 : skipWs s (p + v.dump.length) = p + v.dump.length :=
        skipWs_of_not_ws (by rw [h04]; decide)
      rw [show need v + 1 + (1 + needItems (v2 :: t2) + slack) =
        (need v + 1 + needItems (v2 :: t2) + slack) + 1 by omega]
      conv_lhs => rw [parseArrayLoop]
      rw [if_pos hp4]
      simp only [hskip4, h04]
      rw [if_neg (by decide : ¬ (',' : Char) = ']')]
      rw [if_pos trivial]
      rw [if_pos trivial]
      have hdrop5 : s.drop (p + v.dump.length + 1) = itemsText (v2 :: t2) ++ rest :=
        drop_succ_of_drop hdrop4
      rw [show need v + 1 + needItems (v2 :: t2) + slack =
        needItems (v2 :: t2) + 1 + (need v + slack) by omega]
      rw [ih Ht s (p + v.dump.length + 1) rest (acc ++ [v]) (need v + slack) false hdrop5]
      have hitpos : 0 < (itemsText (v2 :: t2)).length :=
        itemsText_length_pos (fun x hx => (Ht x hx).2)
      have hlen : (itemsText (v :: v2 :: t2)).length =
          v.dump.length + 1 + (itemsText (v2 :: t2)).length := by
        simp [itemsText]
        omega
      rw [hlen]
      rw [show p + v.dump.length + 1 + (itemsText (v2 :: t2)).length - 1 =
        p + (v.dump.length + 1 + (itemsText (v2 :: t2)).length) - 1 by omega]
      simp

theorem goodPairs_mem {l : List (List Char × JsonValue)} (h : goodPairs l = true) :
    ∀ kv ∈ l, kv.1 ≠ [] ∧ goodStr kv.1 = true ∧ good kv.2 = true := by
  induction l with
  | nil => intro kv hkv; cases hkv
  | cons hd t ih =>
    rcases hd with ⟨k, v⟩
    simp only [goodPairs, Bool.and_eq_true, Bool.not_eq_true', decide_eq_false_iff_not] at h
    intro kv hkv
    rcases List.mem_cons.mp hkv with he | hm
    · subst he
      exact ⟨h.1.1.1.1, h.1.1.1.2, h.1.2⟩
    · exact ih h.2 kv hm

theorem goodPairs_nodup {l : List (List Char × JsonValue)} (h : goodPairs l = true) :
    (l.map Prod.fst).Nodup := by
  induction l with
  | nil => simp
  | cons hd t ih =>
    rcases hd with ⟨k, v⟩
    simp only [goodPairs, Bool.and_eq_true, Bool.not_eq_true', decide_eq_false_iff_not] at h
    rw [List.map_cons, List.nodup_cons]
    exact ⟨h.1.1.2, ih h.2⟩

theorem goodItems_mem {l : List JsonValue} (h : goodItems l = true) :
    ∀ x ∈ l, good x = true := by
  induction l with
  | nil => intro x hx; cases hx
  | cons v t ih =>
    simp only [goodItems, Bool.and_eq_true] at h
    intro x hx
    rcases List.mem_cons.mp hx with he | hm
    · subst he; exact h.1
    · exact ih h.2 x hm

theorem sizeOf_child_obj {kv : List Char × JsonValue}
    {l : List (List Char × JsonValue)} (h : kv ∈ l) :
    sizeOf kv.2 < sizeOf (JsonValue.jobject l) := by
  have h1 := List.sizeOf_lt_of_mem h
  rcases kv with ⟨k, v⟩
  show sizeOf v < sizeOf (JsonValue.jobject l)
  simp only [Prod.mk.sizeOf_spec] at h1
  simp only [JsonValue.jobject.sizeOf_spec]
  omega

theorem sizeOf_child_arr {x : JsonValue} {l : List JsonValue} (h : x ∈ l) :
    sizeOf x < sizeOf (JsonValue.jarray l) := by
  have h1 := List.sizeOf_lt_of_mem h
  simp only [JsonValue.jarray.sizeOf_spec]
  omega

theorem RT_good_aux : ∀ (n : Nat) (v : JsonValue), sizeOf v ≤ n → good v = true → RT v := by
  intro n
  induction n with
  | zero =>
    intro v hsz hg
    exact absurd hsz (by cases v <;> simp)
  | succ n ih =>
    intro v hsz hg
    cases v with
    | jobject l =>
      intro s p rest slack hdrop hstop
      rw [dump_jobject] at hdrop ⊢
      have hdrop' : s.drop p = '{' :: (pairsText l ++ rest) := by rw [hdrop]; try simp
      have h0 : getC s p = '{' := getC_of_drop hdrop'
      have hskip : skipWs s p = p := skipWs_of_not_ws (by rw [h0]; decide)
      have hdrop1 : s.drop (p + 1) = pairsText l ++ rest := drop_succ_of_drop hdrop'
      have hgp : goodPairs l = true := by simpa [good] using hg
      have H : ∀ kv ∈ l, RT kv.2 ∧ kv.1 ≠ [] ∧ goodStr kv.1 = true ∧
          0 < kv.2.dump.length := by
        intro kv hkv
        obtain ⟨hk, hgsk, hgv⟩ := goodPairs_mem hgp kv hkv
        have hsize : sizeOf kv.2 ≤ n := by
          have := sizeOf_child_obj hkv
          omega
        exact ⟨ih kv.2 hsize hgv, hk, hgsk, dump_length_pos hgv⟩
      rw [show need (JsonValue.jobject l) + slack = (needPairs l + 1 + slack) + 1 by
        rw [need_jobject]; omega]
      simp only [parseValue, hskip, h0]
      rw [if_pos trivial]
      rw [objLoop_rt l H (goodPairs_nodup hgp) s (p + 1) rest [] slack hdrop1
        (by intro kv _; simp)]
      have hlen : ('{' :: pairsText l).length = (pairsText l).length + 1 := by simp
      rw [hlen]
      have hpe : p + 1 + (pairsText l).length - 1 =
          p + ((pairsText l).length + 1) - 1 := by omega
      simp [hpe]
    | jarray l =>
      intro s p rest slack hdrop hstop
      rw [dump_jarray] at hdrop ⊢
      have hdrop' : s.drop p = '[' :: (itemsText l ++ rest) := by rw [hdrop]; try simp
      have h0 : getC s p = '[' := getC_of_drop hdrop'
      have hskip : skipWs s p = p := skipWs_of_not_ws (by rw [h0]; decide)
      have hdrop1 : s.drop (p + 1) = itemsText l ++ rest := drop_succ_of_drop hdrop'
      have hgi : goodItems l = true := by simpa [good] using hg
      have H : ∀ x ∈ l, RT x ∧ good x = true := by
        intro x hx
        have hgx := goodItems_mem hgi x hx
        have hsize : sizeOf x ≤ n := by
          have := sizeOf_child_arr hx
          omega
        exact ⟨ih x hsize hgx, hgx⟩
      rw [show need (JsonValue.jarray l) + slack = (needItems l + 1 + slack) + 1 by
        rw [need_jarray]; omega]
      simp only [parseValue, hskip, h0]
      rw [if_neg (by decide : ¬ ('[' : Char) = '{')]
      rw [if_pos trivial]
      rw [arrLoop_rt l H s (p + 1) rest [] slack false hdrop1]
      have hlen : ('[' :: itemsText l).length = (itemsText l).length + 1 := by simp
      rw [hlen]
      have hpe : p + 1 + (itemsText l).length - 1 =
          p + ((itemsText l).length + 1) - 1 := by omega
      simp [hpe]
    | jstring c => exact RT_jstring (by simpa [good] using hg)
    | jinteger m => exact RT_jinteger m
    | jfloat q => exact absurd hg (by simp [good])
    | jboolean b => exact RT_jboolean b
    | jnull => exact RT_jnull

theorem RT_of_good {v : JsonValue} (hg : good v = true) : RT v :=
  RT_good_aux (sizeOf v) v le_rfl hg

theorem needPairs_le {l : List (List Char × JsonValue)}
    (H : ∀ kv ∈ l, need kv.2 ≤ 2 * kv.2.dump.length) :
    needPairs l ≤ 2 * (pairsText l).length := by
  induction l with
  | nil => simp [needPairs_nil, pairsText]
  | cons hd t ih =>
    rcases hd with ⟨k, v⟩
    have h1 : need v ≤ 2 * v.dump.length := H (k, v) (List.mem_cons_self _ t)
    have h2 := ih (fun kv hkv => H kv (List.mem_cons_of_mem _ hkv))
    rw [needPairs_cons]
    cases t with
    | nil =>
      have hlen : (pairsText ((k, v) :: [])).length = k.length + v.dump.length + 4 := by
        simp [pairsText]; omega
      rw [hlen, needPairs_nil]
      omega
    | cons hd2 t2 =>
      have hlen : (pairsText ((k, v) :: hd2 :: t2)).length =
          k.length + v.dump.length + 4 + (pairsText (hd2 :: t2)).length := by
        simp [pairsText]; omega
      rw [hlen]
      omega

theorem needItems_le {l : List JsonValue}
    (H : ∀ x ∈ l, need x ≤ 2 * x.dump.length) :
    needItems l ≤ 2 * (itemsText l).length := by
  induction l with
  | nil => simp [needItems_nil, itemsText]
  | cons v t ih =>
    have h1 := H v (List.mem_cons_self _ t)
    have h2 := ih (fun x hx => H x (List.mem_cons_of_mem _ hx))
    rw [needItems_cons]
    cases t with
    | nil =>
      have hlen : (itemsText (v :: [])).length = v.dump.length + 1 := by
        simp [itemsText]
      rw [hlen, needItems_nil]
      omega
    | cons v2 t2 =>
      have hlen : (itemsText (v :: v2 :: t2)).length =
          v.dump.length + 1 + (itemsText (v2 :: t2)).length := by
        simp [itemsText]; omega
      rw [hlen]
      omega

theorem need_le_aux : ∀ (n : Nat) (v : JsonValue), sizeOf v ≤ n → good v = true →
    need v ≤ 2 * v.dump.length := by
  intro n
  induction n with
  | zero =>
    intro v hsz hg
    exact absurd hsz (by cases v <;> simp)
  | succ n ih =>
    intro v hsz hg
    cases v with
    | jobject l =>
      rw [need_jobject, dump_jobject]
      have hgp : goodPairs l = true := by simpa [good] using hg
      have h := needPairs_le (fun kv hkv =>
        ih kv.2 (by have := sizeOf_child_obj hkv; omega)
          (goodPairs_mem hgp kv hkv).2.2)
      simp only [List.length_cons]
      omega
    | jarray l =>
      rw [need_jarray, dump_jarray]
      have hgi : goodItems l = true := by simpa [good] using hg
      have h := needItems_le (fun x hx =>
        ih x (by have := sizeOf_child_arr hx; omega) (goodItems_mem hgi x hx))
      simp only [List.length_cons]
      omega
    | jstring c =>
      rw [need_jstring]
      simp [JsonValue.dump]
      omega
    | jinteger m =>
      have hpos : 0 < (intDump m).length := List.length_pos.mpr (intDump_ne_nil m)
      rw [show need (JsonValue.jinteger m) = 1 by simp [need]]
      show 1 ≤ 2 * (intDump m).length
      omega
    | jfloat q => exact absurd hg (by simp [good])
    | jboolean b => cases b <;> simp [need, JsonValue.dump]
    | jnull => simp [need, JsonValue.dump]

theorem need_le {v : JsonValue} (hg : good v = true) : need v ≤ 2 * v.dump.length :=
  need_le_aux (sizeOf v) v le_rfl hg

/-- Claim C1, counterexample: the claim "for every Value v, parsing the text
produced by v.dump() yields a tree with the same type(), size() and scalar
contents as v" fails at the string value "a\"b": its dump is the text
`"a"b"` (no escaping is applied), which parses back — without any error —
as the string "a", whose scalar content differs from the original. -/
theorem C1_quote_string_breaks_roundtrip :
    (JsonBase.parse (JsonValue.jstring ['a', '"', 'b']).dump).val =
      JsonValue.jstring ['a'] ∧
    (JsonBase.parse (JsonValue.jstring ['a', '"', 'b']).dump).last_error =
      JsonError.ok ∧
    JsonValue.jstring ['a'] ≠ JsonValue.jstring ['a', '"', 'b'] := by
  refine ⟨rfl, rfl, ?_⟩
  simp

/-- Claim C1 (amended): for every Value with no Float leaf, whose every
string payload and object key contains neither a quote nor a backslash,
whose object keys are non-empty, and whose object key lists are duplicate
free (the predicate `good`), parsing the text produced by `dump()` yields
exactly the original tree with no error — in particular the same `type()`,
the same `size()` and the same scalar contents. -/
theorem C1_parse_after_dump (v : JsonValue) (h : good v = true) :
    JsonBase.parse v.dump = { val := v, last_error := JsonError.ok } ∧
    (JsonBase.parse v.dump).val.type = v.type ∧
    (JsonBase.parse v.dump).val.size = v.size := by
  have hmain : JsonBase.parse v.dump = { val := v, last_error := JsonError.ok } := by
    have hRT := RT_of_good h
    have hle : need v ≤ 2 * v.dump.length + 4 := le_trans (need_le h) (by omega)
    obtain ⟨slack, hs⟩ := Nat.exists_eq_add_of_le hle
    have h1 := hRT v.dump 0 [] slack (by simp)
      (by show stopper nul; exact ⟨by decide, by decide, by decide⟩)
    simp only [JsonBase.parse]
    rw [hs, h1]
    simp
  exact ⟨hmain, by rw [hmain], by rw [hmain]⟩

/-- Claim C1, witness: the amended round-trip theorem applied to the
concrete object `{"k":"hi","m":[null,true]}`. -/
theorem C1_parse_after_dump_witness :
    good (JsonValue.jobject [(['k'], JsonValue.jstring ['h', 'i']),
      (['m'], JsonValue.jarray [JsonValue.jnull, JsonValue.jboolean true])]) = true ∧
    JsonBase.parse (JsonValue.jobject [(['k'], JsonValue.jstring ['h', 'i']),
      (['m'], JsonValue.jarray [JsonValue.jnull, JsonValue.jboolean true])]).dump =
      { val := JsonValue.jobject [(['k'], JsonValue.jstring ['h', 'i']),
          (['m'], JsonValue.jarray [JsonValue.jnull, JsonValue.jboolean true])],
        last_error := JsonError.ok } :=
  ⟨by decide, (C1_parse_after_dump _ (by decide)).1⟩

/-- Claim C2: for every Value of kind Array, the fluent set (`insert`) with a
non-empty key fails with the NotSupported error (`JsonError::not_implemented`)
and leaves the array unchanged — the payload is identical, hence `size()` and
all existing elements are the same as before the call. -/
theorem C2_array_insert_nonempty_key (l : List JsonValue) (e0 : JsonError)
    (key : List Char) (child : JsonValue) (h : key ≠ []) :
    (JsonBase.mk (JsonValue.jarray l) e0).set key child =
      { val := JsonValue.jarray l, last_error := JsonError.not_implemented } ∧
    ((JsonBase.mk (JsonValue.jarray l) e0).set key child).val.size =
      (JsonValue.jarray l).size := by
  have hmain : (JsonBase.mk (JsonValue.jarray l) e0).set key child =
      { val := JsonValue.jarray l, last_error := JsonError.not_implemented } := by
    simp [JsonBase.set, JsonValue.insert, h]
  exact ⟨hmain, by rw [hmain]⟩

/-- Claim C2, witness: inserting under the key "illegal" into the parsed
array `[10,21,{"nice":true}]` fails with `not_implemented` and leaves the
three elements in place. -/
theorem C2_array_insert_nonempty_key_witness :
    (['i', 'l', 'l', 'e', 'g', 'a', 'l'] : List Char) ≠ [] ∧
    (JsonBase.mk (JsonValue.jarray [JsonValue.jinteger 10, JsonValue.jinteger 21,
        JsonValue.jobject [(['n', 'i', 'c', 'e'], JsonValue.jboolean true)]])
        JsonError.ok).set ['i', 'l', 'l', 'e', 'g', 'a', 'l'] (JsonValue.jinteger 1) =
      { val := JsonValue.jarray [JsonValue.jinteger 10, JsonValue.jinteger 21,
          JsonValue.jobject [(['n', 'i', 'c', 'e'], JsonValue.jboolean true)]],
        last_error := JsonError.not_implemented } :=
  ⟨by decide, (C2_array_insert_nonempty_key _ _ _ _ (by decide)).1⟩

/-- Claim C3: for every input whose first non-whitespace character is none of
the value-start characters, the parser records the unrecognized-value-start
error (`expected_beginning_of_string_int_object_or_array_null_float`) and
yields the default empty object; the top-level `parse` then returns that
well-formed Value with the generic `parse_error` mark — never a null/absent
result (the embedding is a total function into `JsonBase`). -/
theorem C3_unrecognized_value_start (s : List Char) (h : badStart s = true) :
    parseValue s (2 * s.length + 4) 0 .ok =
      (.jobject [], skipWs s 0,
        .expected_beginning_of_string_int_object_or_array_null_float) ∧
    JsonBase.parse s = { val := .jobject [], last_error := .parse_error } := by
  simp only [badStart, Bool.and_eq_true, Bool.not_eq_true',
    decide_eq_false_iff_not] at h
  obtain ⟨⟨⟨⟨⟨⟨⟨h1, h2⟩, h3⟩, h4⟩, h5⟩, h6⟩, h7⟩, h8⟩ := h
  have hmain : parseValue s (2 * s.length + 4) 0 .ok =
      (.jobject [], skipWs s 0,
        .expected_beginning_of_string_int_object_or_array_null_float) := by
    rw [show 2 * s.length + 4 = (2 * s.length + 3) + 1 from rfl]
    simp only [parseValue]
    rw [if_neg h1, if_neg h2, if_neg h3, if_neg (not_or.mpr ⟨h4, h5⟩), if_neg h6,
      if_neg (not_or.mpr ⟨by simp [h7], h8⟩)]
  refine ⟨hmain, ?_⟩
  simp only [JsonBase.parse]
  rw [hmain]
  simp

/-- Claim C3, witness: the input "%" starts with none of the dispatch
characters. -/
theorem C3_unrecognized_value_start_witness :
    badStart ['%'] = true ∧
    JsonBase.parse ['%'] = { val := .jobject [], last_error := .parse_error } :=
  ⟨by decide, (C3_unrecognized_value_start ['%'] (by decide)).2⟩

/-- Claim C4: the claim says the array parser uses the same comma state
machine as the object parser and rejects "[10 20]" with
`expected_comma_before_next_array_item`; the code instead accepts it
silently as a two-element array with no error, while the object parser does
reject the analogous `{"a":1 "b":2}` with
`expected_comma_before_next_attribute` — the array loop never consults
`expect_comma` before parsing an item. -/
theorem C4_missing_comma_silently_accepted :
    JsonBase.parse ['[', '1', '0', ' ', '2', '0', ']'] =
      { val := JsonValue.jarray [JsonValue.jinteger 10, JsonValue.jinteger 20],
        last_error := JsonError.ok } ∧
    parseValue ['{', '"', 'a', '"', ':', '1', ' ', '"', 'b', '"', ':', '2', '}']
        30 0 .ok =
      (JsonValue.jobject [(['a'], JsonValue.jinteger 1)], 7,
        .expected_comma_before_next_attribute) :=
  ⟨rfl, rfl⟩

/-- Claim C5: the claim says a Float dumps to fixed-point decimal text such
as "2.500000" and never an empty string; in the code `JsonImplDouble::dump`
writes the `%f` text with `snprintf` into the spare capacity of a size-0
`std::string` (after only `reserve(50)`) and never sets the string's size,
so the returned string value is empty for every stored double. -/
theorem C5_float_dump_is_empty (q : ℚ) : (JsonValue.jfloat q).dump = [] := rfl

/-- Claim C7: for every Value of kind Object, `insert` with the empty key ""
fails with the EmptyKey error (`JsonError::empty_attribute_key`) and leaves
the object unchanged — the payload is identical, hence `size()` and every
existing (key, child) pair are the same as before the call. -/
theorem C7_object_insert_empty_key (l : List (List Char × JsonValue))
    (child : JsonValue) (e0 : JsonError) :
    (JsonValue.jobject l).insert [] child e0 =
      (.jobject l, .empty_attribute_key) ∧
    ((JsonValue.jobject l).insert [] child e0).1.size = (JsonValue.jobject l).size := by
  have hmain : (JsonValue.jobject l).insert [] child e0 =
      (.jobject l, .empty_attribute_key) := by
    simp [JsonValue.insert]
  exact ⟨hmain, by rw [hmain]⟩

/-- Claim C9: `map_int` extracts the stored value through the 64-bit
`to_int` (which returns it unchanged with no error), but the callback
parameter has C++ type `int`, so the callback receives the two's-complement
narrowing to 32 bits — and for every stored value outside the `int` range
the received value differs from the stored one. -/
theorem C9_map_int_narrows (n : Int) :
    toIntImpl (JsonValue.jinteger n) .ok = (n, .ok) ∧
    ((JsonBase.mk (JsonValue.jinteger n) JsonError.ok).map_int).2 =
      some (wrap32 n) ∧
    (n < -(2 ^ 31) ∨ 2 ^ 31 ≤ n → wrap32 n ≠ n) := by
  refine ⟨rfl, by simp [JsonBase.map_int, toIntImpl], ?_⟩
  intro hn
  have h1 : 0 ≤ (n + 2 ^ 31) % 2 ^ 32 := Int.emod_nonneg _ (by norm_num)
  have h2 : (n + 2 ^ 31) % 2 ^ 32 < 2 ^ 32 := Int.emod_lt_of_pos _ (by norm_num)
  unfold wrap32
  omega

/-- Claim C9, witness: the stored value 2^31 lies outside the `int` range
and the callback receives the wrapped value -2^31 instead. -/
theorem C9_map_int_narrows_witness :
    ((2 : Int) ^ 31 < -(2 ^ 31) ∨ (2 : Int) ^ 31 ≤ 2 ^ 31) ∧
    wrap32 (2 ^ 31) ≠ (2 : Int) ^ 31 :=
  ⟨Or.inr le_rfl, (C9_map_int_narrows (2 ^ 31)).2.2 (Or.inr le_rfl)⟩

theorem strLoop_take : ∀ (prev : Char) (l : List Char),
    (strLoop prev l).1 = l.take ((strLoop prev l).2.1) := by
  intro prev l
  induction l generalizing prev with
  | nil => rfl
  | cons c t ih =>
    by_cases hc : c = '"' ∧ prev ≠ '\\'
    · simp [strLoop, hc]
    · simp only [strLoop, if_neg hc]
      simp [ih c]

theorem strLoop_noTerm : ∀ (prev : Char) (l : List Char),
    noTermList prev l = true → strLoop prev l = (l, l.length, false) := by
  intro prev l
  induction l generalizing prev with
  | nil => intro _; rfl
  | cons c t ih =>
    intro h
    simp only [noTermList, Bool.and_eq_true, Bool.not_eq_true',
      decide_eq_false_iff_not] at h
    simp only [strLoop, if_neg h.1]
    rw [ih c h.2]
    simp

/-- Claim C6: a quote whose immediately preceding character is a backslash
never terminates the scan — the scan stops only on a quote whose predecessor
is not a backslash (first conjunct, stated on the scanning loop of
`parse_string`); and on an input in which no terminating unescaped quote
occurs before end-of-input, `parse_string` sets
`expected_closing_quote_but_got_eos` and still returns a string value
carrying every character accumulated after the opening quote (second
conjunct). -/
theorem C6_escaped_quote_and_unterminated :
    (∀ (prev : Char) (l cs : List Char) (n : Nat),
        strLoop prev l = (cs, n, true) →
        l.getD n nul = '"' ∧ prevAt prev l n ≠ '\\') ∧
    (∀ (s : List Char) (p : Nat) (err : JsonParserError),
        noTermList (getC s p) (s.drop (p + 1)) = true →
        parseString s p err =
          (.jstring (s.drop (p + 1)), p + 1 + (s.drop (p + 1)).length,
            .expected_closing_quote_but_got_eos)) := by
  constructor
  · intro prev l
    induction l generalizing prev with
    | nil =>
      intro cs n h
      simp [strLoop] at h
    | cons c t ih =>
      intro cs n h
      by_cases hc : c = '"' ∧ prev ≠ '\\'
      · simp only [strLoop, if_pos hc] at h
        simp only [Prod.mk.injEq] at h
        obtain ⟨hcs, hn, -⟩ := h
        subst hn
        exact ⟨by simp [hc.1], by simp [prevAt, hc.2]⟩
      · rcases hr : strLoop c t with ⟨cs', m', b'⟩
        simp only [strLoop, if_neg hc, hr] at h
        simp only [Prod.mk.injEq] at h
        obtain ⟨hcs, hn, hb⟩ := h
        subst hb
        subst hn
        obtain ⟨ha, hb2⟩ := ih c cs' m' hr
        constructor
        · simpa [List.getD_cons_succ] using ha
        · cases m' with
          | zero => simpa [prevAt] using hb2
          | succ mm => simpa [prevAt, List.getD_cons_succ] using hb2
  · intro s p err h
    have h2 := strLoop_noTerm (getC s p) (s.drop (p + 1)) h
    simp only [parseString, h2]
    simp

/-- Claim C6, witness: the input `"a` has an opening quote and then reaches
end-of-input with no closing quote. -/
theorem C6_escaped_quote_and_unterminated_witness :
    noTermList (getC ['"', 'a'] 0) (['"', 'a'].drop (0 + 1)) = true ∧
    parseString ['"', 'a'] 0 .ok =
      (.jstring (['"', 'a'].drop (0 + 1)),
        0 + 1 + (['"', 'a'].drop (0 + 1)).length,
        .expected_closing_quote_but_got_eos) :=
  ⟨by decide, C6_escaped_quote_and_unterminated.2 ['"', 'a'] 0 .ok (by decide)⟩

/-- Claim C8, counterexample: the claim "otherwise the call is a no-op (the
callback is not invoked and the Value, including its pending error, is
unchanged)" fails at an integer Value with a pending `does_not_exist` error:
`map_string` does not invoke its callback, but the kind-mismatched
extraction overwrites the pending error with `not_implemented`. -/
theorem C8_pending_error_overwritten :
    ((JsonBase.mk (JsonValue.jinteger 0) JsonError.does_not_exist).map_string).2 =
      none ∧
    ((JsonBase.mk (JsonValue.jinteger 0)
        JsonError.does_not_exist).map_string).1.last_error =
      JsonError.not_implemented ∧
    JsonError.not_implemented ≠ JsonError.does_not_exist := by
  refine ⟨rfl, rfl, ?_⟩
  simp

/-- Claim C8 (amended): each combinator invokes its callback exactly when
the corresponding extraction succeeds with no error pending; the payload is
never changed and the receiving Value is returned; but the sticky error is
not always preserved: a kind-mismatched `map_string`/`map_int`/`map_bool`
overwrites it with `not_implemented` (even when another error was pending),
and `map_object` overwrites it with `not_implemented` whenever the receiver
is not an error-free object. -/
theorem C8_combinator_contract (b : JsonBase) :
    ((b.map_string).2.isSome ↔ b.val.type = .string ∧ b.last_error = .ok) ∧
    (b.map_string).1.val = b.val ∧
    (b.map_string).1.last_error =
      (if b.val.type = .string then b.last_error else .not_implemented) ∧
    ((b.map_int).2.isSome ↔ b.val.type = .integer ∧ b.last_error = .ok) ∧
    (b.map_int).1.val = b.val ∧
    (b.map_int).1.last_error =
      (if b.val.type = .integer then b.last_error else .not_implemented) ∧
    ((b.map_bool).2.isSome ↔ b.val.type = .boolean ∧ b.last_error = .ok) ∧
    (b.map_bool).1.val = b.val ∧
    (b.map_bool).1.last_error =
      (if b.val.type = .boolean then b.last_error else .not_implemented) ∧
    ((b.map_object).2.isSome ↔ b.val.type = .object ∧ b.last_error = .ok) ∧
    (b.map_object).1.val = b.val ∧
    (b.map_object).1.last_error =
      (if b.val.type = .object ∧ b.last_error = .ok then b.last_error
       else .not_implemented) := by
  rcases b with ⟨v, e⟩
  by_cases he : e = JsonError.ok <;>
    cases v <;>
      simp [JsonBase.map_string, JsonBase.map_int, JsonBase.map_bool,
        JsonBase.map_object, toStringImpl, toIntImpl, toBoolImpl,
        JsonValue.type, he]

/-- Claim C10: the string scanner performs no escape translation — whenever
`parse_string` returns a string payload, that payload equals the raw input
characters between the position after the opening quote and the end cursor,
verbatim; in particular the input `"a\"b"` yields the payload `a\"b` with
the backslash retained. -/
theorem C10_no_escape_translation :
    (∀ (s : List Char) (p : Nat) (err : JsonParserError) (cs : List Char)
        (q : Nat) (e : JsonParserError),
        parseString s p err = (.jstring cs, q, e) →
        cs = (s.drop (p + 1)).take (q - (p + 1))) ∧
    parseString ['"', 'a', '\\', '"', 'b', '"'] 0 .ok =
      (.jstring ['a', '\\', '"', 'b'], 5, .ok) := by
  constructor
  · intro s p err cs q e h
    rcases hr : strLoop (getC s p) (s.drop (p + 1)) with ⟨cs', m', b'⟩
    have htake := strLoop_take (getC s p) (s.drop (p + 1))
    rw [hr] at htake
    simp only [parseString, hr] at h
    cases b' with
    | true =>
      rw [if_pos rfl] at h
      injection h with h1 h2
      injection h2 with h2a h2b
      injection h1 with h1a
      subst h1a
      subst h2a
      rw [show p + 1 + m' - (p + 1) = m' by omega]
      exact htake
    | false =>
      rw [if_neg (by simp)] at h
      injection h with h1 h2
      injection h2 with h2a h2b
      injection h1 with h1a
      subst h1a
      subst h2a
      rw [show p + 1 + m' - (p + 1) = m' by omega]
      exact htake
  · rfl

/-- Claim C10, witness: the general verbatim property applied to the
concrete input `"a\"b"`. -/
theorem C10_no_escape_translation_witness :
    parseString ['"', 'a', '\\', '"', 'b', '"'] 0 .ok =
      (.jstring ['a', '\\', '"', 'b'], 5, .ok) ∧
    (['a', '\\', '"', 'b'] : List Char) =
      (['"', 'a', '\\', '"', 'b', '"'].drop (0 + 1)).take (5 - (0 + 1)) :=
  ⟨rfl, C10_no_escape_translation.1 ['"', 'a', '\\', '"', 'b', '"'] 0 .ok
    ['a', '\\', '"', 'b'] 5 .ok rfl⟩
